import Mathlib

/-!
Verification of the patch-automation scripts of the repository
(`patch_engine_empty.py`, `patch_main.py`, `patch_service.py`,
`patch_default.py`, `patch_readme.py`).

Each script reads a text file, applies a sequence of Python
`str.replace(old, new)` rewrites, and writes the result back.  We embed file
contents as `List Char` and give `str.replace` (for a non-empty pattern) the
exact leftmost, non-overlapping scanning semantics it has in Python:
`firstSplit` finds the leftmost occurrence, `replaceAll` rewrites it and
continues scanning after the inserted replacement.
-/

set_option maxRecDepth 8000

namespace MemoryMcpPatches

/-- Occurrence predicate: position `i` of `s` carries an occurrence of the
pattern `p`, i.e. `p` is a prefix of `s` with its first `i` characters
removed. -/
def OccAt (p s : List Char) (i : Nat) : Prop := p <+: s.drop i

instance (p s : List Char) (i : Nat) : Decidable (OccAt p s i) :=
  inferInstanceAs (Decidable (p <+: s.drop i))

/-- Leftmost-occurrence split.  `firstSplit p s = some (pre, post)` when
`s = pre ++ p ++ post` and the shown occurrence of `p` is the leftmost one;
`none` when `p` does not occur in `s`.  This is the scanning step of Python
`str.replace`. -/
def firstSplit (p : List Char) : List Char → Option (List Char × List Char)
  | [] => if p.isPrefixOf [] then some ([], []) else none
  | c :: t =>
    if p.isPrefixOf (c :: t) then some ([], (c :: t).drop p.length)
    else
      match firstSplit p t with
      | none => none
      | some (pre, post) => some (c :: pre, post)

/-- Boolean occurrence test used by the frame and idempotence statements. -/
def occursB (p s : List Char) : Bool := (firstSplit p s).isSome

/-- Fuelled worker for `replaceAll`; one unit of fuel per replaced
occurrence.  Since the patterns replaced by the scripts are non-empty,
`s.length` fuel always suffices. -/
def replaceAllF (p r : List Char) : Nat → List Char → List Char
  | 0, s => s
  | fuel + 1, s =>
    match firstSplit p s with
    | none => s
    | some (pre, post) => pre ++ r ++ replaceAllF p r fuel post

/-- Python `s.replace(p, r)` for a non-empty pattern `p`: rewrite every
occurrence of `p`, scanning left to right and resuming after each inserted
replacement. -/
def replaceAll (p r s : List Char) : List Char := replaceAllF p r s.length s

/-- Fuelled worker for `countOcc`. -/
def countOccF (p : List Char) : Nat → List Char → Nat
  | 0, _ => 0
  | fuel + 1, s =>
    match firstSplit p s with
    | none => 0
    | some (_, post) => countOccF p fuel post + 1

/-- Number of (leftmost, non-overlapping) occurrences of `p` in `s`; the
number of rewrites `replaceAll p r s` performs. -/
def countOcc (p s : List Char) : Nat := countOccF p s.length s

/-- Interleave a list of segments with a separator:
`joinWith sep [a, b, c] = a ++ sep ++ b ++ sep ++ c`. -/
def joinWith (sep : List Char) : List (List Char) → List Char
  | [] => []
  | [t] => t
  | t :: u :: ts => t ++ sep ++ joinWith sep (u :: ts)

/-! ### Basic facts about prefixes and occurrences -/

theorem prefix_append_of_le {p a b : List Char} (h : p <+: a ++ b)
    (hl : p.length ≤ a.length) : p <+: a := by
  have h1 : p = (a ++ b).take p.length := List.prefix_iff_eq_take.mp h
  have h2 : (a ++ b).take p.length = a.take p.length ++ b.take (p.length - a.length) :=
    List.take_append_eq_append_take
  have h3 : p.length - a.length = 0 := Nat.sub_eq_zero_of_le hl
  rw [h2, h3, List.take_zero, List.append_nil] at h1
  rw [h1]
  exact List.take_prefix _ _

theorem prefix_append_split {p a b : List Char} (h : p <+: a ++ b)
    (hl : a.length ≤ p.length) : p.take a.length = a ∧ p.drop a.length <+: b := by
  obtain ⟨t, ht⟩ := h
  constructor
  · have h4 : (p ++ t).take a.length = (a ++ b).take a.length := by rw [ht]
    rw [List.take_append_eq_append_take, Nat.sub_eq_zero_of_le hl,
      List.take_zero, List.append_nil] at h4
    rw [List.take_append_eq_append_take, Nat.sub_self, List.take_zero,
      List.append_nil, List.take_length] at h4
    exact h4
  · have h4 : (p ++ t).drop a.length = (a ++ b).drop a.length := by rw [ht]
    rw [List.drop_append_eq_append_drop, Nat.sub_eq_zero_of_le hl,
      List.drop_zero] at h4
    rw [List.drop_append_eq_append_drop, Nat.sub_self, List.drop_length,
      List.drop_zero, List.nil_append] at h4
    exact ⟨t, h4⟩

theorem occAt_append_left {p x : List Char} (y : List Char) {i : Nat}
    (h : OccAt p x i) : OccAt p (x ++ y) i := by
  unfold OccAt at *
  rw [List.drop_append_eq_append_drop]
  exact h.trans (List.prefix_append _ _)

theorem occAt_append_right (x : List Char) {p y : List Char} {j : Nat}
    (h : OccAt p y j) : OccAt p (x ++ y) (x.length + j) := by
  unfold OccAt at *
  rw [List.drop_append_eq_append_drop, List.drop_eq_nil_of_le (by omega),
    Nat.add_sub_cancel_left, List.nil_append]
  exact h

theorem occAt_append_cases {p x y : List Char} {i : Nat}
    (h : OccAt p (x ++ y) i) :
    (i + p.length ≤ x.length ∧ OccAt p x i) ∨
    (x.length ≤ i ∧ OccAt p y (i - x.length)) ∨
    (i < x.length ∧ x.length < i + p.length ∧
      p.take (x.length - i) = x.drop i ∧ p.drop (x.length - i) <+: y) := by
  unfold OccAt at h
  rcases le_or_lt x.length i with hxi | hxi
  · refine Or.inr (Or.inl ⟨hxi, ?_⟩)
    unfold OccAt
    rwa [List.drop_append_eq_append_drop, List.drop_eq_nil_of_le hxi,
      List.nil_append] at h
  · rw [List.drop_append_eq_append_drop, Nat.sub_eq_zero_of_le (Nat.le_of_lt hxi),
      List.drop_zero] at h
    rcases le_or_lt (i + p.length) x.length with hpl | hpl
    · refine Or.inl ⟨hpl, ?_⟩
      exact prefix_append_of_le h (by
        have := List.length_drop i x
        omega)
    · refine Or.inr (Or.inr ⟨hxi, hpl, ?_⟩)
      have hlen : (x.drop i).length ≤ p.length := by
        rw [List.length_drop]; omega
      have := prefix_append_split h hlen
      rwa [List.length_drop] at this

theorem occAt_length_lt {p s : List Char} {i : Nat} (hp : p ≠ [])
    (h : OccAt p s i) : i < s.length := by
  unfold OccAt at h
  have h1 : p.length ≤ (s.drop i).length := h.length_le
  rw [List.length_drop] at h1
  have h2 : 0 < p.length := List.length_pos.mpr hp
  omega

theorem infix_of_occAt {p s : List Char} {i : Nat} (h : OccAt p s i) :
    p <:+: s := by
  unfold OccAt at h
  obtain ⟨t, ht⟩ := h
  exact ⟨s.take i, t, by rw [List.append_assoc, ht, List.take_append_drop]⟩

theorem occAt_of_infix {p s : List Char} (h : p <:+: s) : ∃ i, OccAt p s i := by
  obtain ⟨x, y, hxy⟩ := h
  refine ⟨x.length, ?_⟩
  unfold OccAt
  rw [← hxy, List.append_assoc, List.drop_append_eq_append_drop,
    List.drop_eq_nil_of_le (Nat.le_refl _), Nat.sub_self, List.drop_zero,
    List.nil_append]
  exact List.prefix_append _ _

/-! ### Correctness of `firstSplit` -/

theorem firstSplit_prefix_case {p s : List Char} (h : p.isPrefixOf s = true) :
    firstSplit p s = some ([], s.drop p.length) := by
  cases s with
  | nil =>
    unfold firstSplit
    rw [if_pos h]
    simp
  | cons c t =>
    unfold firstSplit
    rw [if_pos h]

theorem firstSplit_some_eq {p : List Char} :
    ∀ {s pre post : List Char}, firstSplit p s = some (pre, post) →
      s = pre ++ p ++ post := by
  intro s
  induction s with
  | nil =>
    intro pre post h
    unfold firstSplit at h
    split at h
    next hg =>
      simp only [Option.some.injEq, Prod.mk.injEq] at h
      obtain ⟨h1, h2⟩ := h
      have hp0 : p = [] :=
        List.prefix_nil.mp (List.isPrefixOf_iff_prefix.mp hg)
      subst h1
      subst h2
      simp [hp0]
    next => exact absurd h (by simp)
  | cons c t ih =>
    intro pre post h
    unfold firstSplit at h
    split at h
    next hg =>
      simp only [Option.some.injEq, Prod.mk.injEq] at h
      obtain ⟨h1, h2⟩ := h
      subst h1
      subst h2
      have hp' : p <+: (c :: t) := List.isPrefixOf_iff_prefix.mp hg
      have htake : p = (c :: t).take p.length := List.prefix_iff_eq_take.mp hp'
      conv_lhs => rw [← List.take_append_drop p.length (c :: t)]
      rw [← htake, List.nil_append]
    next =>
      split at h
      next => exact absurd h (by simp)
      next pre' post' hfs =>
        simp only [Option.some.injEq, Prod.mk.injEq] at h
        obtain ⟨h1, h2⟩ := h
        subst h1
        subst h2
        have := ih hfs
        simp [this]

theorem firstSplit_none_not_occAt {p : List Char} :
    ∀ {s : List Char}, firstSplit p s = none → ∀ i, ¬ OccAt p s i := by
  intro s
  induction s with
  | nil =>
    intro h i hocc
    unfold OccAt at hocc
    rw [List.drop_nil] at hocc
    have hp0 : p = [] := List.prefix_nil.mp hocc
    subst hp0
    unfold firstSplit at h
    simp [List.isPrefixOf] at h
  | cons c t ih =>
    intro h i hocc
    unfold firstSplit at h
    split at h
    next => exact absurd h (by simp)
    next hg =>
      split at h
      next hfs =>
        cases i with
        | zero =>
          unfold OccAt at hocc
          rw [List.drop_zero] at hocc
          exact hg (List.isPrefixOf_iff_prefix.mpr hocc)
        | succ j => exact ih hfs j hocc
      next pre' post' hfs => exact absurd h (by simp)

theorem firstSplit_leftmost {p : List Char} :
    ∀ {s pre post : List Char}, firstSplit p s = some (pre, post) →
      ∀ i, i < pre.length → ¬ OccAt p s i := by
  intro s
  induction s with
  | nil =>
    intro pre post h i hi hocc
    unfold firstSplit at h
    split at h
    next hg =>
      simp only [Option.some.injEq, Prod.mk.injEq] at h
      obtain ⟨h1, h2⟩ := h
      subst h1
      simp at hi
    next => exact absurd h (by simp)
  | cons c t ih =>
    intro pre post h i hi hocc
    unfold firstSplit at h
    split at h
    next hg =>
      simp only [Option.some.injEq, Prod.mk.injEq] at h
      obtain ⟨h1, h2⟩ := h
      subst h1
      simp at hi
    next hg =>
      split at h
      next => exact absurd h (by simp)
      next pre' post' hfs =>
        simp only [Option.some.injEq, Prod.mk.injEq] at h
        obtain ⟨h1, h2⟩ := h
        subst h1
        subst h2
        cases i with
        | zero =>
          unfold OccAt at hocc
          rw [List.drop_zero] at hocc
          exact hg (List.isPrefixOf_iff_prefix.mpr hocc)
        | succ j =>
          have hj : j < pre'.length := by
            simp only [List.length_cons] at hi
            omega
          exact ih hfs j hj hocc

theorem firstSplit_some_of {p : List Char} (post : List Char) :
    ∀ pre : List Char, (∀ i, i < pre.length → ¬ OccAt p (pre ++ p ++ post) i) →
      firstSplit p (pre ++ p ++ post) = some (pre, post) := by
  intro pre
  induction pre with
  | nil =>
    intro _
    rw [List.nil_append]
    have hp : p.isPrefixOf (p ++ post) = true :=
      List.isPrefixOf_iff_prefix.mpr (List.prefix_append _ _)
    rw [firstSplit_prefix_case hp, List.drop_append_eq_append_drop,
      List.drop_length, Nat.sub_self, List.drop_zero, List.nil_append]
  | cons c pre' ih =>
    intro hlm
    have hstep : (c :: pre') ++ p ++ post = c :: (pre' ++ p ++ post) := by simp
    have hguard : ¬ p.isPrefixOf (c :: (pre' ++ p ++ post)) = true := by
      intro hp
      refine hlm 0 (by simp) ?_
      unfold OccAt
      rw [List.drop_zero, hstep]
      exact List.isPrefixOf_iff_prefix.mp hp
    have hrec : firstSplit p (pre' ++ p ++ post) = some (pre', post) := by
      refine ih ?_
      intro i hi hocc
      refine hlm (i + 1) (by simpa using Nat.succ_lt_succ hi) ?_
      unfold OccAt at hocc ⊢
      rw [hstep]
      simpa using hocc
    rw [hstep]
    unfold firstSplit
    rw [if_neg hguard, hrec]

theorem firstSplit_isSome_of_occAt {p s : List Char} {i : Nat}
    (h : OccAt p s i) : (firstSplit p s).isSome := by
  cases hfs : firstSplit p s with
  | none => exact absurd h (firstSplit_none_not_occAt hfs i)
  | some q => rfl

/-! ### Unfolding equations for `replaceAll` and `countOcc` -/

theorem replaceAllF_congr {p r : List Char} (hp : p ≠ []) :
    ∀ f g s, s.length ≤ f → s.length ≤ g →
      replaceAllF p r f s = replaceAllF p r g s := by
  intro f
  induction f with
  | zero =>
    intro g s hf _
    have hs : s = [] := List.length_eq_zero.mp (Nat.le_zero.mp hf)
    subst hs
    cases g with
    | zero => rfl
    | succ g' =>
      show [] = replaceAllF p r (g' + 1) []
      unfold replaceAllF
      cases hfs : firstSplit p [] with
      | none => rfl
      | some q =>
        obtain ⟨pre, post⟩ := q
        have := firstSplit_some_eq hfs
        have : p = [] := by
          cases p with
          | nil => rfl
          | cons a b => simp at this
        exact absurd this hp
  | succ f' ih =>
    intro g s hf hg
    cases g with
    | zero =>
      have hs : s = [] := List.length_eq_zero.mp (Nat.le_zero.mp hg)
      subst hs
      show replaceAllF p r (f' + 1) [] = []
      unfold replaceAllF
      cases hfs : firstSplit p [] with
      | none => rfl
      | some q =>
        obtain ⟨pre, post⟩ := q
        have heq := firstSplit_some_eq hfs
        have : p = [] := by
          cases p with
          | nil => rfl
          | cons a b => simp at heq
        exact absurd this hp
    | succ g' =>
      show replaceAllF p r (f' + 1) s = replaceAllF p r (g' + 1) s
      unfold replaceAllF
      cases hfs : firstSplit p s with
      | none => rfl
      | some q =>
        obtain ⟨pre, post⟩ := q
        have heq := firstSplit_some_eq hfs
        have hplen : 0 < p.length := List.length_pos.mpr hp
        have hlen : post.length + 1 ≤ s.length := by
          rw [heq]
          simp only [List.length_append]
          omega
        simp only
        rw [ih g' post (by omega) (by omega)]

theorem replaceAll_none {p r s : List Char} (h : firstSplit p s = none) :
    replaceAll p r s = s := by
  unfold replaceAll
  cases hl : s.length with
  | zero => rfl
  | succ n =>
    unfold replaceAllF
    rw [h]

theorem replaceAll_some {p r : List Char} (hp : p ≠ []) {s pre post : List Char}
    (h : firstSplit p s = some (pre, post)) :
    replaceAll p r s = pre ++ r ++ replaceAll p r post := by
  have heq := firstSplit_some_eq h
  have hplen : 0 < p.length := List.length_pos.mpr hp
  have hlen : post.length + 1 ≤ s.length := by
    rw [heq]; simp only [List.length_append]; omega
  obtain ⟨n, hl⟩ : ∃ n, s.length = n + 1 := ⟨s.length - 1, by omega⟩
  have step : replaceAllF p r (n + 1) s = pre ++ r ++ replaceAllF p r n post := by
    simp only [replaceAllF, h]
  unfold replaceAll
  rw [hl, step, replaceAllF_congr hp n post.length post (by omega) (Nat.le_refl _)]

theorem countOccF_congr {p : List Char} (hp : p ≠ []) :
    ∀ f g s, s.length ≤ f → s.length ≤ g →
      countOccF p f s = countOccF p g s := by
  intro f
  induction f with
  | zero =>
    intro g s hf _
    have hs : s = [] := List.length_eq_zero.mp (Nat.le_zero.mp hf)
    subst hs
    cases g with
    | zero => rfl
    | succ g' =>
      show 0 = countOccF p (g' + 1) []
      unfold countOccF
      cases hfs : firstSplit p [] with
      | none => rfl
      | some q =>
        obtain ⟨pre, post⟩ := q
        have heq := firstSplit_some_eq hfs
        have : p = [] := by
          cases p with
          | nil => rfl
          | cons a b => simp at heq
        exact absurd this hp
  | succ f' ih =>
    intro g s hf hg
    cases g with
    | zero =>
      have hs : s = [] := List.length_eq_zero.mp (Nat.le_zero.mp hg)
      subst hs
      show countOccF p (f' + 1) [] = 0
      unfold countOccF
      cases hfs : firstSplit p [] with
      | none => rfl
      | some q =>
        obtain ⟨pre, post⟩ := q
        have heq := firstSplit_some_eq hfs
        have : p = [] := by
          cases p with
          | nil => rfl
          | cons a b => simp at heq
        exact absurd this hp
    | succ g' =>
      show countOccF p (f' + 1) s = countOccF p (g' + 1) s
      unfold countOccF
      cases hfs : firstSplit p s with
      | none => rfl
      | some q =>
        obtain ⟨pre, post⟩ := q
        have heq := firstSplit_some_eq hfs
        have hplen : 0 < p.length := List.length_pos.mpr hp
        have hlen : post.length + 1 ≤ s.length := by
          rw [heq]; simp only [List.length_append]; omega
        simp only
        rw [ih g' post (by omega) (by omega)]

theorem countOcc_none {p s : List Char} (h : firstSplit p s = none) :
    countOcc p s = 0 := by
  unfold countOcc
  cases hl : s.length with
  | zero => rfl
  | succ n =>
    unfold countOccF
    rw [h]

theorem countOcc_some {p : List Char} (hp : p ≠ []) {s pre post : List Char}
    (h : firstSplit p s = some (pre, post)) :
    countOcc p s = countOcc p post + 1 := by
  have heq := firstSplit_some_eq h
  have hplen : 0 < p.length := List.length_pos.mpr hp
  have hlen : post.length + 1 ≤ s.length := by
    rw [heq]; simp only [List.length_append]; omega
  obtain ⟨n, hl⟩ : ∃ n, s.length = n + 1 := ⟨s.length - 1, by omega⟩
  have step : countOccF p (n + 1) s = countOccF p n post + 1 := by
    simp only [countOccF, h]
  unfold countOcc
  rw [hl, step, countOccF_congr hp n post.length post (by omega) (Nat.le_refl _)]

/-! ### The patch scripts

Each definition below transcribes, byte for byte, a Python string literal of
one of the repository's patch scripts (`\x7b`/`\x7d` denote the brace
characters, `\x27` the apostrophe).  Each `patch_*` function is the composite
rewrite the corresponding script applies to the file content it reads. -/

/-- Pattern of `patch_engine_empty.py`: the last-token extraction line of
`src/embedding/engine.rs`. -/
def engineOld : List Char :=
  "let embedding = hidden.narrow(1, actual_len - 1, 1)?.squeeze(1)?;".data

/-- Guard text `patch_engine_empty.py` inserts in front of the extraction
line: an early `return Err(...)` for `actual_len == 0`, followed by a newline
and the 20-space indentation of the original line. -/
def engineGuard : List Char :=
  "if actual_len == 0 \x7b return Err(anyhow::anyhow!(\"Cannot embed empty token sequence\")); \x7d\n                    ".data

/-- Replacement string of `patch_engine_empty.py` (guard plus the original
line). -/
def engineNew : List Char :=
  "if actual_len == 0 \x7b return Err(anyhow::anyhow!(\"Cannot embed empty token sequence\")); \x7d\n                    let embedding = hidden.narrow(1, actual_len - 1, 1)?.squeeze(1)?;".data

/-- The rewrite `patch_engine_empty.py` applies to `src/embedding/engine.rs`. -/
def patch_engine_empty (s : List Char) : List Char := replaceAll engineOld engineNew s

/-- Old `mrl_dim` clap attribute replaced by `patch_main.py`. -/
def mainHelpOld : List Char := "#[arg(long, env = \"MRL_DIM\")]".data

/-- New `mrl_dim` clap attribute inserted by `patch_main.py`, with the help
text documenting the default. -/
def mainHelpNew : List Char :=
  "#[arg(long, env = \"MRL_DIM\", help = \"MRL output dimension (Qwen3/Gemma only). Defaults to model native dim (1024 for qwen3)\")]".data

/-- End of the dimension-check block of `src/main.rs`, the anchor of the
second rewrite of `patch_main.py`. -/
def mainLogOld : List Char :=
  "tracing::warn!(\"Dimension check: \x7b\x7d\", e);\n    \x7d".data

/-- Structured configuration-resolved event appended by `patch_main.py`
directly after the dimension-check block. -/
def mainInfoLine : List Char :=
  "\n\n    tracing::info!(output_dim = embedding_config.output_dim(), model = %embedding_config.model, \"Embedding engine configured\");".data

/-- Replacement of the second rewrite of `patch_main.py`: the anchor followed
by the new `tracing::info!` event. -/
def mainLogNew : List Char :=
  "tracing::warn!(\"Dimension check: \x7b\x7d\", e);\n    \x7d\n\n    tracing::info!(output_dim = embedding_config.output_dim(), model = %embedding_config.model, \"Embedding engine configured\");".data

/-- The rewrite `patch_main.py` applies to `src/main.rs` (help attribute
first, then the log line, as in the script). -/
def patch_main (s : List Char) : List Char :=
  replaceAll mainLogOld mainLogNew (replaceAll mainHelpOld mainHelpNew s)

/-- Anchor of `patch_service.py`: the adjacent `model` and `cache_dir`
bindings of `src/embedding/service.rs`. -/
def serviceOld : List Char :=
  "let model = self.config.model;\n        let cache_dir = self.config.cache_dir.clone();".data

/-- Replacement of `patch_service.py`: the same two bindings with the
`mrl_dim` binding restored between them. -/
def serviceNew : List Char :=
  "let model = self.config.model;\n        let mrl_dim = self.config.mrl_dim;\n        let cache_dir = self.config.cache_dir.clone();".data

/-- The rewrite `patch_service.py` applies to `src/embedding/service.rs`. -/
def patch_service (s : List Char) : List Char := replaceAll serviceOld serviceNew s

/-- Manual `impl Default for ModelType` block removed by `patch_default.py`. -/
def defaultImplOld : List Char :=
  "impl Default for ModelType \x7b\n    fn default() -> Self \x7b\n        Self::Qwen3\n    \x7d\n\x7d".data

/-- Old derive list of the `ModelType` enum. -/
def deriveOld : List Char := "#[derive(Debug, Clone, Copy, PartialEq, Eq)]".data

/-- New derive list with `Default` added by `patch_default.py`. -/
def deriveNew : List Char := "#[derive(Debug, Clone, Copy, PartialEq, Eq, Default)]".data

/-- The `Qwen3` variant line of the `ModelType` enum. -/
def qwenOld : List Char := "    Qwen3,".data

/-- The `Qwen3` variant line with the `#[default]` attribute prepended by
`patch_default.py`. -/
def qwenNew : List Char := "    #[default]\n    Qwen3,".data

/-- The rewrite `patch_default.py` applies to `src/embedding/config.rs`:
remove the manual impl, add `Default` to the derive list, tag `Qwen3` with
`#[default]` (in script order). -/
def patch_default (s : List Char) : List Char :=
  replaceAll qwenOld qwenNew
    (replaceAll deriveOld deriveNew (replaceAll defaultImplOld "".data s))

/-- Old configuration table of `README.md`, the anchor of the first rewrite
of `patch_readme.py`. -/
def readmeConfigOld : List Char :=
  "| Arg | Env | Default | Description |\n|-----|-----|---------|-------------|\n| `--data-dir` | `DATA_DIR` | `./data` | DB location |\n| `--model` | `EMBEDDING_MODEL` | `e5_multi` | Embedding model (`e5_small`, `e5_multi`, `nomic`, `bge_m3`) |\n| `--log-level` | `LOG_LEVEL` | `info` | Verbosity |".data

/-- New configuration table written by `patch_readme.py`. -/
def readmeConfigNew : List Char :=
  "| Arg | Env | Default | Description |\n|-----|-----|---------|-------------|\n| `--data-dir` | `DATA_DIR` | `./data` | DB location |\n| `--model` | `EMBEDDING_MODEL` | `qwen3` | Embedding model (`qwen3`, `gemma`, `bge_m3`, `nomic`, `e5_multi`, `e5_small`) |\n| `--mrl-dim` | `MRL_DIM` | *(native)* | Output dimension for MRL-supported models (e.g. 64, 128, 256, 512, 1024 for Qwen3). Defaults to the model\x27s native maximum dimension (1024 for Qwen3). |\n| `--batch-size` | `BATCH_SIZE` | `8` | Maximum batch size for embedding inference |\n| `--cache-size` | `CACHE_SIZE` | `1000` | LRU cache capacity for embeddings |\n| `--timeout` | `TIMEOUT_MS` | `30000` | Timeout in milliseconds |\n| `--idle-timeout` | `IDLE_TIMEOUT` | `0` | Idle timeout in minutes. 0 = disabled |\n| `--log-level` | `LOG_LEVEL` | `info` | Verbosity |".data

/-- Old models table of `README.md`, the anchor of the second rewrite of
`patch_readme.py`. -/
def readmeModelsOld : List Char :=
  "| Argument Value | HuggingFace Repo | Dimensions | Size | Use Case |\n| :--- | :--- | :--- | :--- | :--- |\n| `e5_small` | `intfloat/multilingual-e5-small` | 384 | 134 MB | Fastest, minimal RAM. Good for dev/testing. |\n| `e5_multi` | `intfloat/multilingual-e5-base` | 768 | 1.1 GB | **Default**. Best balance of quality/speed. |\n| `nomic` | `nomic-ai/nomic-embed-text-v1.5` | 768 | 1.9 GB | High quality long-context embeddings. |\n| `bge_m3` | `BAAI/bge-m3` | 1024 | 2.3 GB | State-of-the-art multilingual quality. Heavy. |".data

/-- New models table and MRL section written by `patch_readme.py`. -/
def readmeModelsNew : List Char :=
  "| Argument Value | HuggingFace Repo | Dimensions | Size | Use Case |\n| :--- | :--- | :--- | :--- | :--- |\n| `qwen3` | `Qwen/Qwen3-Embedding-0.6B` | 1024 (MRL) | 1.2 GB | **Default**. Top open-source 2026 model, 32K context, MRL support. |\n| `gemma` | `onnx-community/embeddinggemma-300m-ONNX` | 768 (MRL) | ~195 MB | Lighter alternative with MRL support. (Requires proprietary license agreement) |\n| `bge_m3` | `BAAI/bge-m3` | 1024 | 2.3 GB | State-of-the-art multilingual hybrid retrieval. Heavy. |\n| `nomic` | `nomic-ai/nomic-embed-text-v1.5` | 768 | 1.9 GB | High quality long-context BERT-compatible. |\n| `e5_multi` | `intfloat/multilingual-e5-base` | 768 | 1.1 GB | Legacy; kept for backward compatibility. |\n| `e5_small` | `intfloat/multilingual-e5-small` | 384 | 134 MB | Fastest, minimal RAM. Good for dev/testing. |\n\n### 📉 Matryoshka Representation Learning (MRL)\n\nModels marked with **(MRL)** support dynamically truncating the output embedding vector to a smaller dimension (e.g., 512, 256, 128) with minimal loss of accuracy. This saves database storage and speeds up vector search.\n\nUse the `--mrl-dim` argument to specify the desired size. If omitted, the default is the model\x27s native base dimension (e.g., 1024 for Qwen3).\n\n**Warning:** Once your database is created with a specific dimension, you cannot change it without wiping the data directory.".data

/-- The rewrite `patch_readme.py` applies to `README.md` (configuration
table first, then models table, as in the script). -/
def patch_readme (s : List Char) : List Char :=
  replaceAll readmeModelsOld readmeModelsNew
    (replaceAll readmeConfigOld readmeConfigNew s)

/-! ### Helper lemmas for the occurrence analysis -/

theorem firstSplit_nil {p : List Char} (hp : p ≠ []) : firstSplit p [] = none := by
  unfold firstSplit
  rw [if_neg]
  intro h
  exact hp (List.prefix_nil.mp (List.isPrefixOf_iff_prefix.mp h))

theorem drop_append_of_le {a b : List Char} {n : Nat} (h : a.length ≤ n) :
    (a ++ b).drop n = b.drop (n - a.length) := by
  rw [List.drop_append_eq_append_drop, List.drop_eq_nil_of_le h, List.nil_append]

theorem occAt_append_extract_left {q x y : List Char} {j : Nat} (hq : q ≠ [])
    (h : OccAt q (x ++ y) j) (hj : j + q.length ≤ x.length) : OccAt q x j := by
  have hqlen : 0 < q.length := List.length_pos.mpr hq
  rcases occAt_append_cases h with ⟨_, hocc⟩ | ⟨hge, _⟩ | ⟨_, hlt, _, _⟩
  · exact hocc
  · omega
  · omega

theorem occAt_append_extract_right {q x y : List Char} {j : Nat}
    (h : OccAt q (x ++ y) j) (hj : x.length ≤ j) : OccAt q y (j - x.length) := by
  unfold OccAt at h ⊢
  rwa [List.drop_append_eq_append_drop, List.drop_eq_nil_of_le hj,
    List.nil_append] at h

theorem infix_append_of_infix_left {q x : List Char} (y : List Char)
    (h : q <:+: x) : q <:+: x ++ y := by
  obtain ⟨u, v, huv⟩ := h
  exact ⟨u, v ++ y, by rw [← huv]; simp⟩

theorem infix_append_of_infix_right {q y : List Char} (x : List Char)
    (h : q <:+: y) : q <:+: x ++ y := by
  obtain ⟨u, v, huv⟩ := h
  exact ⟨x ++ u, v, by rw [← huv]; simp⟩

/-- In the output block `pre ++ (G ++ A) ++ tail` produced by one rewrite
step of `replaceAll A (G ++ A)`, no occurrence of `A` starts before the
position `pre.length + G.length` of the re-inserted copy of `A`. -/
theorem no_early_occ {A G : List Char} (hA : A ≠ [])
    (sc1 : ∀ k, k < A.length → 0 < k → ¬ (A.drop k <+: G ++ A))
    (sc2 : ∀ j, OccAt A (G ++ A) j → j = G.length)
    {s pre post : List Char} (hfs : firstSplit A s = some (pre, post))
    (tail : List Char) :
    ∀ i, i < pre.length + G.length → ¬ OccAt A ((pre ++ (G ++ A)) ++ tail) i := by
  intro i hi hocc
  have hAlen : 0 < A.length := List.length_pos.mpr hA
  rcases occAt_append_cases hocc with ⟨hle, hx⟩ | ⟨hge, _⟩ | ⟨h1, h2, _, _⟩
  · rcases occAt_append_cases hx with ⟨hle2, hpre⟩ | ⟨_, hGA⟩ | ⟨g1, g2, _, g4⟩
    · have hs : OccAt A s i := by
        have hlift := occAt_append_left (A ++ post) hpre
        rwa [← List.append_assoc, ← firstSplit_some_eq hfs] at hlift
      exact firstSplit_leftmost hfs i (by omega) hs
    · have := sc2 _ hGA
      omega
    · exact sc1 _ (by omega) (by omega) g4
  · rw [List.length_append, List.length_append] at hge
    omega
  · rw [List.length_append, List.length_append] at h1 h2
    omega

/-! ### Every occurrence of the anchor in the output is guarded -/

theorem replaceAll_preceded_aux {A G : List Char} (hA : A ≠ [])
    (sc1 : ∀ k, k < A.length → 0 < k → ¬ (A.drop k <+: G ++ A))
    (sc2 : ∀ j, OccAt A (G ++ A) j → j = G.length)
    (sc3 : ∀ k, k < A.length → 0 < k → ¬ (A.drop k <+: A)) :
    ∀ n s i, s.length ≤ n → OccAt A (replaceAll A (G ++ A) s) i →
      G.length ≤ i ∧ OccAt G (replaceAll A (G ++ A) s) (i - G.length) := by
  intro n
  induction n with
  | zero =>
    intro s i hs hocc
    have hnil : s = [] := List.length_eq_zero.mp (Nat.le_zero.mp hs)
    subst hnil
    rw [replaceAll_none (firstSplit_nil hA)] at hocc
    exact absurd hocc (firstSplit_none_not_occAt (firstSplit_nil hA) i)
  | succ n ih =>
    intro s i hs hocc
    cases hfs : firstSplit A s with
    | none =>
      rw [replaceAll_none hfs] at hocc
      exact absurd hocc (firstSplit_none_not_occAt hfs i)
    | some q =>
      obtain ⟨pre, post⟩ := q
      have heqs := firstSplit_some_eq hfs
      have hAlen : 0 < A.length := List.length_pos.mpr hA
      have hpost : post.length ≤ n := by
        rw [heqs] at hs
        simp only [List.length_append] at hs
        omega
      have hout : replaceAll A (G ++ A) s
          = (pre ++ (G ++ A)) ++ replaceAll A (G ++ A) post :=
        replaceAll_some hA hfs
      rw [hout] at hocc ⊢
      rcases occAt_append_cases hocc with ⟨hle, hx⟩ | ⟨hge, hy⟩ | ⟨c1, c2, c3, _⟩
      · rcases le_or_lt (pre.length + G.length) i with hgood | hbad
        · have hieq : i = pre.length + G.length := by
            rw [List.length_append, List.length_append] at hle
            omega
          refine ⟨by omega, ?_⟩
          have hG0 : OccAt G ((G ++ A) ++ replaceAll A (G ++ A) post) 0 := by
            unfold OccAt
            rw [List.drop_zero, List.append_assoc]
            exact List.prefix_append _ _
          have hGlift := occAt_append_right pre hG0
          rw [Nat.add_zero, ← List.append_assoc] at hGlift
          rw [hieq, Nat.add_sub_cancel]
          exact hGlift
        · exact absurd hocc (no_early_occ hA sc1 sc2 hfs _ i hbad)
      · obtain ⟨hGle, hGocc⟩ :=
          ih post (i - (pre ++ (G ++ A)).length) hpost hy
        have hxlen : (pre ++ (G ++ A)).length = pre.length + (G.length + A.length) := by
          simp
        refine ⟨by omega, ?_⟩
        have hlift := occAt_append_right (pre ++ (G ++ A)) hGocc
        rw [show (pre ++ (G ++ A)).length +
            (i - (pre ++ (G ++ A)).length - G.length) = i - G.length from by
          omega] at hlift
        exact hlift
      · rcases le_or_lt (pre.length + G.length) i with hgood | hbad
        · rw [List.length_append, List.length_append] at c1 c2
          have hxdrop : (pre ++ (G ++ A)).drop i
              = A.drop (i - pre.length - G.length) := by
            rw [drop_append_of_le (by omega), drop_append_of_le (by omega)]
          rw [hxdrop] at c3
          have hpref : A.drop (i - pre.length - G.length) <+: A := by
            rw [← c3]
            exact List.take_prefix _ _
          rw [List.length_append, List.length_append] at c3
          exact absurd hpref (sc3 _ (by omega) (by omega))
        · exact absurd hocc (no_early_occ hA sc1 sc2 hfs _ i hbad)

theorem replaceAll_preceded {A G : List Char} (hA : A ≠ [])
    (sc1 : ∀ k, k < A.length → 0 < k → ¬ (A.drop k <+: G ++ A))
    (sc2 : ∀ j, OccAt A (G ++ A) j → j = G.length)
    (sc3 : ∀ k, k < A.length → 0 < k → ¬ (A.drop k <+: A)) (s : List Char)
    (i : Nat) (hocc : OccAt A (replaceAll A (G ++ A) s) i) :
    G.length ≤ i ∧ OccAt G (replaceAll A (G ++ A) s) (i - G.length) :=
  replaceAll_preceded_aux hA sc1 sc2 sc3 s.length s i (Nat.le_refl _) hocc

/-! ### Every occurrence of the anchor in the output is followed by the
appended text -/

theorem replaceAll_followed_aux {P F : List Char} (hP : P ≠ [])
    (hPF : P.length ≤ F.length)
    (sc1 : ∀ k, k < P.length → 0 < k → ¬ (P.drop k <+: P ++ F))
    (sc2 : ∀ j, OccAt P (P ++ F) j → j = 0)
    (sc3 : ∀ m, m < P.length → 0 < m → ¬ (P.take m <:+ F)) :
    ∀ n s i, s.length ≤ n → OccAt P (replaceAll P (P ++ F) s) i →
      OccAt F (replaceAll P (P ++ F) s) (i + P.length) := by
  intro n
  induction n with
  | zero =>
    intro s i hs hocc
    have hnil : s = [] := List.length_eq_zero.mp (Nat.le_zero.mp hs)
    subst hnil
    rw [replaceAll_none (firstSplit_nil hP)] at hocc
    exact absurd hocc (firstSplit_none_not_occAt (firstSplit_nil hP) i)
  | succ n ih =>
    intro s i hs hocc
    cases hfs : firstSplit P s with
    | none =>
      rw [replaceAll_none hfs] at hocc
      exact absurd hocc (firstSplit_none_not_occAt hfs i)
    | some q =>
      obtain ⟨pre, post⟩ := q
      have heqs := firstSplit_some_eq hfs
      have hPlen : 0 < P.length := List.length_pos.mpr hP
      have hpost : post.length ≤ n := by
        rw [heqs] at hs
        simp only [List.length_append] at hs
        omega
      have hout : replaceAll P (P ++ F) s
          = (pre ++ (P ++ F)) ++ replaceAll P (P ++ F) post :=
        replaceAll_some hP hfs
      rw [hout] at hocc ⊢
      rcases occAt_append_cases hocc with ⟨hle, hx⟩ | ⟨hge, hy⟩ | ⟨c1, c2, c3, _⟩
      · rcases occAt_append_cases hx with ⟨hle2, hpre⟩ | ⟨hge2, hPF2⟩ | ⟨g1, g2, _, g4⟩
        · exfalso
          have hs2 : OccAt P s i := by
            have hlift := occAt_append_left (P ++ post) hpre
            rwa [← List.append_assoc, ← heqs] at hlift
          exact firstSplit_leftmost hfs i (by omega) hs2
        · have hj := sc2 _ hPF2
          have hieq : i = pre.length := by omega
          subst hieq
          have hF0 : OccAt F ((P ++ F) ++ replaceAll P (P ++ F) post) P.length := by
            unfold OccAt
            rw [List.append_assoc, drop_append_of_le (Nat.le_refl _), Nat.sub_self,
              List.drop_zero]
            exact List.prefix_append _ _
          have hlift := occAt_append_right pre hF0
          rw [← List.append_assoc] at hlift
          exact hlift
        · exact absurd g4 (sc1 _ (by omega) (by omega))
      · have hy2 := ih post (i - (pre ++ (P ++ F)).length) hpost hy
        have hlift := occAt_append_right (pre ++ (P ++ F)) hy2
        rw [show (pre ++ (P ++ F)).length +
            (i - (pre ++ (P ++ F)).length + P.length) = i + P.length from by
          omega] at hlift
        exact hlift
      · exfalso
        rw [List.length_append, List.length_append] at c1 c2
        have hipre : pre.length + F.length < i := by omega
        have hxdrop : (pre ++ (P ++ F)).drop i
            = F.drop (i - pre.length - P.length) := by
          rw [drop_append_of_le (by omega), drop_append_of_le (by omega)]
        rw [List.length_append, List.length_append] at c3
        rw [hxdrop] at c3
        have hsfx : P.take (pre.length + (P.length + F.length) - i) <:+ F := by
          rw [c3]
          exact List.drop_suffix _ _
        exact absurd hsfx (sc3 _ (by omega) (by omega))

theorem replaceAll_followed {P F : List Char} (hP : P ≠ [])
    (hPF : P.length ≤ F.length)
    (sc1 : ∀ k, k < P.length → 0 < k → ¬ (P.drop k <+: P ++ F))
    (sc2 : ∀ j, OccAt P (P ++ F) j → j = 0)
    (sc3 : ∀ m, m < P.length → 0 < m → ¬ (P.take m <:+ F)) (s : List Char)
    (i : Nat) (hocc : OccAt P (replaceAll P (P ++ F) s) i) :
    OccAt F (replaceAll P (P ++ F) s) (i + P.length) :=
  replaceAll_followed_aux hP hPF sc1 sc2 sc3 s.length s i (Nat.le_refl _) hocc

/-! ### The rewrite preserves the number of anchor occurrences -/

theorem replaceAll_count_aux {A G : List Char} (hA : A ≠ [])
    (sc1 : ∀ k, k < A.length → 0 < k → ¬ (A.drop k <+: G ++ A))
    (sc2 : ∀ j, OccAt A (G ++ A) j → j = G.length) :
    ∀ n s, s.length ≤ n →
      countOcc A (replaceAll A (G ++ A) s) = countOcc A s := by
  intro n
  induction n with
  | zero =>
    intro s hs
    have hnil : s = [] := List.length_eq_zero.mp (Nat.le_zero.mp hs)
    subst hnil
    rw [replaceAll_none (firstSplit_nil hA)]
  | succ n ih =>
    intro s hs
    cases hfs : firstSplit A s with
    | none => rw [replaceAll_none hfs]
    | some q =>
      obtain ⟨pre, post⟩ := q
      have heqs := firstSplit_some_eq hfs
      have hAlen : 0 < A.length := List.length_pos.mpr hA
      have hpost : post.length ≤ n := by
        rw [heqs] at hs
        simp only [List.length_append] at hs
        omega
      have hout : replaceAll A (G ++ A) s
          = (pre ++ (G ++ A)) ++ replaceAll A (G ++ A) post :=
        replaceAll_some hA hfs
      have hshape : (pre ++ (G ++ A)) ++ replaceAll A (G ++ A) post
          = (pre ++ G) ++ A ++ replaceAll A (G ++ A) post := by
        simp [List.append_assoc]
      have hfs2 : firstSplit A ((pre ++ G) ++ A ++ replaceAll A (G ++ A) post)
          = some (pre ++ G, replaceAll A (G ++ A) post) := by
        apply firstSplit_some_of
        intro i hi hocc
        rw [← hshape] at hocc
        rw [List.length_append] at hi
        exact no_early_occ hA sc1 sc2 hfs _ i hi hocc
      rw [hout, hshape, countOcc_some hA hfs2, countOcc_some hA hfs,
        ih post hpost]

theorem replaceAll_count {A G : List Char} (hA : A ≠ [])
    (sc1 : ∀ k, k < A.length → 0 < k → ¬ (A.drop k <+: G ++ A))
    (sc2 : ∀ j, OccAt A (G ++ A) j → j = G.length) (s : List Char) :
    countOcc A (replaceAll A (G ++ A) s) = countOcc A s :=
  replaceAll_count_aux hA sc1 sc2 s.length s (Nat.le_refl _)

/-! ### Patterns that cannot reappear in the output of a rewrite -/

theorem not_infix_replaceAll_aux {p r q : List Char} (hp : p ≠ []) (hq : q ≠ [])
    (hqr : q.length ≤ r.length) (h1 : ¬ q <:+: r)
    (h2 : ∀ k, k < q.length → 0 < k → ¬ (q.drop k <+: r))
    (h3 : ∀ m, m < q.length → 0 < m → ¬ (q.take m <:+ r)) :
    ∀ n s, s.length ≤ n → ¬ q <:+: s → ¬ q <:+: replaceAll p r s := by
  intro n
  induction n with
  | zero =>
    intro s hs hqs
    have hnil : s = [] := List.length_eq_zero.mp (Nat.le_zero.mp hs)
    subst hnil
    rw [replaceAll_none (firstSplit_nil hp)]
    exact hqs
  | succ n ih =>
    intro s hs hqs hinf
    cases hfs : firstSplit p s with
    | none =>
      rw [replaceAll_none hfs] at hinf
      exact hqs hinf
    | some qq =>
      obtain ⟨pre, post⟩ := qq
      have heqs := firstSplit_some_eq hfs
      have hplen : 0 < p.length := List.length_pos.mpr hp
      have hqlen : 0 < q.length := List.length_pos.mpr hq
      have hpost : post.length ≤ n := by
        rw [heqs] at hs
        simp only [List.length_append] at hs
        omega
      have hpostinf : ¬ q <:+: post := by
        intro hqp
        refine hqs ?_
        rw [heqs, List.append_assoc]
        exact infix_append_of_infix_right _ (infix_append_of_infix_right _ hqp)
      rw [replaceAll_some hp hfs] at hinf
      obtain ⟨i, hocc⟩ := occAt_of_infix hinf
      rcases occAt_append_cases hocc with ⟨hle, hx⟩ | ⟨hge, hy⟩ | ⟨c1, c2, c3, _⟩
      · rcases occAt_append_cases hx with ⟨hle2, hpre2⟩ | ⟨hge2, hr⟩ | ⟨g1, g2, _, g4⟩
        · refine hqs ?_
          rw [heqs, List.append_assoc]
          exact infix_append_of_infix_left _ (infix_of_occAt hpre2)
        · exact h1 (infix_of_occAt hr)
        · exact h2 _ (by omega) (by omega) g4
      · exact ih post hpost hpostinf (infix_of_occAt hy)
      · rw [List.length_append] at c1 c2
        have him : i > pre.length := by omega
        have hxdrop : (pre ++ r).drop i = r.drop (i - pre.length) :=
          drop_append_of_le (by omega)
        rw [List.length_append] at c3
        rw [hxdrop] at c3
        have hsfx : q.take (pre.length + r.length - i) <:+ r := by
          rw [c3]
          exact List.drop_suffix _ _
        exact h3 _ (by omega) (by omega) hsfx

theorem not_infix_replaceAll {p r q : List Char} (hp : p ≠ []) (hq : q ≠ [])
    (hqr : q.length ≤ r.length) (h1 : ¬ q <:+: r)
    (h2 : ∀ k, k < q.length → 0 < k → ¬ (q.drop k <+: r))
    (h3 : ∀ m, m < q.length → 0 < m → ¬ (q.take m <:+ r)) (s : List Char)
    (hqs : ¬ q <:+: s) : ¬ q <:+: replaceAll p r s :=
  not_infix_replaceAll_aux hp hq hqr h1 h2 h3 s.length s (Nat.le_refl _) hqs

theorem self_not_infix_replaceAll_aux {p r : List Char} (hp : p ≠ [])
    (hpr : p.length ≤ r.length) (h1 : ¬ p <:+: r)
    (h2 : ∀ k, k < p.length → 0 < k → ¬ (p.drop k <+: r))
    (h3 : ∀ m, m < p.length → 0 < m → ¬ (p.take m <:+ r)) :
    ∀ n s, s.length ≤ n → ¬ p <:+: replaceAll p r s := by
  intro n
  induction n with
  | zero =>
    intro s hs hinf
    have hnil : s = [] := List.length_eq_zero.mp (Nat.le_zero.mp hs)
    subst hnil
    rw [replaceAll_none (firstSplit_nil hp)] at hinf
    obtain ⟨u, v, huv⟩ := hinf
    obtain ⟨hup, hv⟩ := List.append_eq_nil.mp huv
    exact hp (List.append_eq_nil.mp hup).2
  | succ n ih =>
    intro s hs hinf
    cases hfs : firstSplit p s with
    | none =>
      rw [replaceAll_none hfs] at hinf
      obtain ⟨i, hocc⟩ := occAt_of_infix hinf
      exact firstSplit_none_not_occAt hfs i hocc
    | some qq =>
      obtain ⟨pre, post⟩ := qq
      have heqs := firstSplit_some_eq hfs
      have hplen : 0 < p.length := List.length_pos.mpr hp
      have hpost : post.length ≤ n := by
        rw [heqs] at hs
        simp only [List.length_append] at hs
        omega
      rw [replaceAll_some hp hfs] at hinf
      obtain ⟨i, hocc⟩ := occAt_of_infix hinf
      rcases occAt_append_cases hocc with ⟨hle, hx⟩ | ⟨hge, hy⟩ | ⟨c1, c2, c3, _⟩
      · rcases occAt_append_cases hx with ⟨hle2, hpre2⟩ | ⟨hge2, hr⟩ | ⟨g1, g2, _, g4⟩
        · have hs2 : OccAt p s i := by
            have hlift := occAt_append_left (p ++ post) hpre2
            rwa [← List.append_assoc, ← heqs] at hlift
          exact firstSplit_leftmost hfs i (by omega) hs2
        · exact h1 (infix_of_occAt hr)
        · exact h2 _ (by omega) (by omega) g4
      · exact ih post hpost (infix_of_occAt hy)
      · rw [List.length_append] at c1 c2
        have hxdrop : (pre ++ r).drop i = r.drop (i - pre.length) :=
          drop_append_of_le (by omega)
        rw [List.length_append] at c3
        rw [hxdrop] at c3
        have hsfx : p.take (pre.length + r.length - i) <:+ r := by
          rw [c3]
          exact List.drop_suffix _ _
        exact h3 _ (by omega) (by omega) hsfx

theorem self_not_infix_replaceAll {p r : List Char} (hp : p ≠ [])
    (hpr : p.length ≤ r.length) (h1 : ¬ p <:+: r)
    (h2 : ∀ k, k < p.length → 0 < k → ¬ (p.drop k <+: r))
    (h3 : ∀ m, m < p.length → 0 < m → ¬ (p.take m <:+ r)) (s : List Char) :
    ¬ p <:+: replaceAll p r s :=
  self_not_infix_replaceAll_aux hp hpr h1 h2 h3 s.length s (Nat.le_refl _)

theorem replaceAll_idem {p r : List Char} (hp : p ≠ [])
    (hpr : p.length ≤ r.length) (h1 : ¬ p <:+: r)
    (h2 : ∀ k, k < p.length → 0 < k → ¬ (p.drop k <+: r))
    (h3 : ∀ m, m < p.length → 0 < m → ¬ (p.take m <:+ r)) (s : List Char) :
    replaceAll p r (replaceAll p r s) = replaceAll p r s := by
  apply replaceAll_none
  cases hfs : firstSplit p (replaceAll p r s) with
  | none => rfl
  | some qq =>
    obtain ⟨pre, post⟩ := qq
    exfalso
    refine self_not_infix_replaceAll hp hpr h1 h2 h3 s ?_
    rw [firstSplit_some_eq hfs, List.append_assoc]
    exact infix_append_of_infix_right _ (infix_append_of_infix_left _ List.infix_rfl)

/-! ### Frame characterization: the output is the input with the anchor
occurrences replaced -/

theorem replaceAll_chunks_aux {p r : List Char} (hp : p ≠ []) :
    ∀ n s, s.length ≤ n → ∃ segs : List (List Char), segs ≠ [] ∧
      (∀ t ∈ segs, ¬ p <:+: t) ∧ s = joinWith p segs ∧
      replaceAll p r s = joinWith r segs := by
  intro n
  induction n with
  | zero =>
    intro s hs
    have hnil : s = [] := List.length_eq_zero.mp (Nat.le_zero.mp hs)
    subst hnil
    refine ⟨[[]], by simp, ?_, by simp [joinWith],
      by rw [replaceAll_none (firstSplit_nil hp)]; simp [joinWith]⟩
    intro t ht hinf
    simp only [List.mem_singleton] at ht
    subst ht
    obtain ⟨u, v, huv⟩ := hinf
    obtain ⟨hup, hv⟩ := List.append_eq_nil.mp huv
    exact hp (List.append_eq_nil.mp hup).2
  | succ n ih =>
    intro s hs
    cases hfs : firstSplit p s with
    | none =>
      refine ⟨[s], by simp, ?_, by simp [joinWith],
        by rw [replaceAll_none hfs]; simp [joinWith]⟩
      intro t ht hinf
      simp only [List.mem_singleton] at ht
      subst ht
      obtain ⟨i, hocc⟩ := occAt_of_infix hinf
      exact firstSplit_none_not_occAt hfs i hocc
    | some qq =>
      obtain ⟨pre, post⟩ := qq
      have heqs := firstSplit_some_eq hfs
      have hplen : 0 < p.length := List.length_pos.mpr hp
      have hpost : post.length ≤ n := by
        rw [heqs] at hs
        simp only [List.length_append] at hs
        omega
      obtain ⟨segs', hne, hfree, hjoin, hrep⟩ := ih post hpost
      refine ⟨pre :: segs', by simp, ?_, ?_, ?_⟩
      · intro t ht
        rcases List.mem_cons.mp ht with h | h
        · intro hinf
          rw [h] at hinf
          obtain ⟨i, hocc⟩ := occAt_of_infix hinf
          have hlt : i < pre.length := occAt_length_lt hp hocc
          have hs2 : OccAt p s i := by
            have hlift := occAt_append_left (p ++ post) hocc
            rwa [← List.append_assoc, ← heqs] at hlift
          exact firstSplit_leftmost hfs i hlt hs2
        · exact hfree t h
      · cases segs' with
        | nil => exact absurd rfl hne
        | cons u ts =>
          show s = pre ++ p ++ joinWith p (u :: ts)
          rw [heqs, hjoin]
      · cases segs' with
        | nil => exact absurd rfl hne
        | cons u ts =>
          show replaceAll p r s = pre ++ r ++ joinWith r (u :: ts)
          rw [replaceAll_some hp hfs, hrep]

theorem replaceAll_chunks {p r : List Char} (hp : p ≠ []) (s : List Char) :
    ∃ segs : List (List Char), segs ≠ [] ∧
      (∀ t ∈ segs, ¬ p <:+: t) ∧ s = joinWith p segs ∧
      replaceAll p r s = joinWith r segs :=
  replaceAll_chunks_aux hp s.length s (Nat.le_refl _)

/-! ### Survival of a pattern whose occurrences are disjoint from the
anchor occurrences -/

theorem infix_replaceAll_of_disjoint_aux {p r q : List Char} (hp : p ≠ [])
    (hq : q ≠ []) :
    ∀ n s, s.length ≤ n →
      (∀ i j, OccAt p s i → OccAt q s j →
        (i + p.length ≤ j ∨ j + q.length ≤ i)) →
      q <:+: s → q <:+: replaceAll p r s := by
  intro n
  induction n with
  | zero =>
    intro s hs _ hqs
    have hnil : s = [] := List.length_eq_zero.mp (Nat.le_zero.mp hs)
    subst hnil
    rw [replaceAll_none (firstSplit_nil hp)]
    exact hqs
  | succ n ih =>
    intro s hs hdisj hqs
    cases hfs : firstSplit p s with
    | none =>
      rw [replaceAll_none hfs]
      exact hqs
    | some qq =>
      obtain ⟨pre, post⟩ := qq
      have heqs := firstSplit_some_eq hfs
      have hplen : 0 < p.length := List.length_pos.mpr hp
      have hqlen : 0 < q.length := List.length_pos.mpr hq
      have hpost : post.length ≤ n := by
        rw [heqs] at hs
        simp only [List.length_append] at hs
        omega
      have hpocc : OccAt p s pre.length := by
        have h0 : OccAt p (p ++ post) 0 := by
          unfold OccAt
          rw [List.drop_zero]
          exact List.prefix_append _ _
        have hlift := occAt_append_right pre h0
        rw [Nat.add_zero, ← List.append_assoc, ← heqs] at hlift
        exact hlift
      obtain ⟨j, hj⟩ := occAt_of_infix hqs
      rw [replaceAll_some hp hfs]
      rcases hdisj pre.length j hpocc hj with hafter | hbefore
      · have hj2 : OccAt q ((pre ++ p) ++ post) j := by rwa [← heqs]
        have hqpost : OccAt q post (j - (pre ++ p).length) :=
          occAt_append_extract_right hj2 (by rw [List.length_append]; omega)
        have hdisj2 : ∀ i2 j2, OccAt p post i2 → OccAt q post j2 →
            (i2 + p.length ≤ j2 ∨ j2 + q.length ≤ i2) := by
          intro i2 j2 hi2 hj2b
          have hl1 := occAt_append_right (pre ++ p) hi2
          have hl2 := occAt_append_right (pre ++ p) hj2b
          rw [← heqs] at hl1 hl2
          rcases hdisj _ _ hl1 hl2 with ha | hb
          · left; omega
          · right; omega
        have hres := ih post hpost hdisj2 (infix_of_occAt hqpost)
        exact infix_append_of_infix_right _ hres
      · have hj2 : OccAt q (pre ++ (p ++ post)) j := by
          rwa [heqs, List.append_assoc] at hj
        have hqpre : OccAt q pre j :=
          occAt_append_extract_left hq hj2 (by omega)
        exact infix_append_of_infix_left _
          (infix_append_of_infix_left _ (infix_of_occAt hqpre))

theorem infix_replaceAll_of_disjoint {p r q : List Char} (hp : p ≠ [])
    (hq : q ≠ []) (s : List Char)
    (hdisj : ∀ i j, OccAt p s i → OccAt q s j →
      (i + p.length ≤ j ∨ j + q.length ≤ i))
    (hqs : q <:+: s) : q <:+: replaceAll p r s :=
  infix_replaceAll_of_disjoint_aux hp hq s.length s (Nat.le_refl _) hdisj hqs

/-- Two patterns that agree on no overlapping placement can never have
overlapping occurrences, in any text. -/
theorem disjoint_of_no_agree {p q : List Char}
    (hA : ∀ d, d < p.length → ¬ (p.drop d <+: q) ∧ ¬ (q <+: p.drop d))
    (hB : ∀ e, e < q.length → ¬ (q.drop e <+: p) ∧ ¬ (p <+: q.drop e)) :
    ∀ s i j, OccAt p s i → OccAt q s j →
      (i + p.length ≤ j ∨ j + q.length ≤ i) := by
  intro s i j hi hj
  by_contra hcon
  push_neg at hcon
  obtain ⟨hc1, hc2⟩ := hcon
  rcases le_or_lt i j with hij | hij
  · have hd : j - i < p.length := by omega
    unfold OccAt at hi hj
    obtain ⟨t, ht⟩ := hi
    have hstep : (s.drop i).drop (j - i) = s.drop j := by
      rw [List.drop_drop]
      congr 1
      omega
    have hdj : s.drop j = p.drop (j - i) ++ t := by
      rw [← hstep, ← ht, List.drop_append_eq_append_drop,
        Nat.sub_eq_zero_of_le (Nat.le_of_lt hd), List.drop_zero]
    rw [hdj] at hj
    rcases le_or_lt q.length (p.drop (j - i)).length with hql | hql
    · exact (hA _ hd).2 (prefix_append_of_le hj hql)
    · have hsplit := prefix_append_split hj (Nat.le_of_lt hql)
      refine (hA _ hd).1 ?_
      rw [← hsplit.1]
      exact List.take_prefix _ _
  · have he : i - j < q.length := by omega
    unfold OccAt at hi hj
    obtain ⟨t, ht⟩ := hj
    have hstep : (s.drop j).drop (i - j) = s.drop i := by
      rw [List.drop_drop]
      congr 1
      omega
    have hdi : s.drop i = q.drop (i - j) ++ t := by
      rw [← hstep, ← ht, List.drop_append_eq_append_drop,
        Nat.sub_eq_zero_of_le (Nat.le_of_lt he), List.drop_zero]
    rw [hdi] at hi
    rcases le_or_lt p.length (q.drop (i - j)).length with hpl | hpl
    · exact (hB _ he).2 (prefix_append_of_le hi hpl)
    · have hsplit := prefix_append_split hi (Nat.le_of_lt hpl)
      refine (hB _ he).1 ?_
      rw [← hsplit.1]
      exact List.take_prefix _ _

/-! ### Discharged side conditions of the concrete anchors -/

theorem occursB_false_iff {p s : List Char} :
    occursB p s = false ↔ firstSplit p s = none := by
  unfold occursB
  cases firstSplit p s <;> simp

theorem engineNew_eq : engineNew = engineGuard ++ engineOld := by decide

theorem mainLogNew_eq : mainLogNew = mainLogOld ++ mainInfoLine := by decide

theorem engine_sc1 : ∀ k, k < engineOld.length → 0 < k →
    ¬ (engineOld.drop k <+: engineGuard ++ engineOld) := by decide

theorem engine_sc2_bounded : ∀ j, j < (engineGuard ++ engineOld).length →
    OccAt engineOld (engineGuard ++ engineOld) j → j = engineGuard.length := by
  decide

theorem engine_sc2 : ∀ j, OccAt engineOld (engineGuard ++ engineOld) j →
    j = engineGuard.length := fun j h =>
  engine_sc2_bounded j (occAt_length_lt (by decide) h) h

theorem engine_sc3 : ∀ k, k < engineOld.length → 0 < k →
    ¬ (engineOld.drop k <+: engineOld) := by decide

theorem main_sc1 : ∀ k, k < mainLogOld.length → 0 < k →
    ¬ (mainLogOld.drop k <+: mainLogOld ++ mainInfoLine) := by decide

theorem main_sc2_bounded : ∀ j, j < (mainLogOld ++ mainInfoLine).length →
    OccAt mainLogOld (mainLogOld ++ mainInfoLine) j → j = 0 := by decide

theorem main_sc2 : ∀ j, OccAt mainLogOld (mainLogOld ++ mainInfoLine) j →
    j = 0 := fun j h => main_sc2_bounded j (occAt_length_lt (by decide) h) h

theorem main_sc3 : ∀ m, m < mainLogOld.length → 0 < m →
    ¬ (mainLogOld.take m <:+ mainInfoLine) := by decide

/-! ### C1, C3, C4: guarded extraction, preserved pooling index, appended
configuration event -/

/-- C1: for every engine source text, every occurrence of the last-token
extraction line `let embedding = hidden.narrow(1, actual_len - 1, 1)?...` in
the output of `patch_engine_empty.py` is immediately preceded by the inserted
early-return guard `if actual_len == 0 \x7b return Err(...); \x7d` (plus the
newline and indentation), so a zero-token input fails before any hidden-state
extraction is attempted. -/
theorem engine_guard_precedes_extraction (s : List Char)
    (hanchor : engineOld <:+: s) :
    ∀ i, OccAt engineOld (patch_engine_empty s) i →
      engineGuard.length ≤ i ∧
        OccAt engineGuard (patch_engine_empty s) (i - engineGuard.length) := by
  intro i hocc
  unfold patch_engine_empty at hocc ⊢
  rw [engineNew_eq] at hocc ⊢
  exact replaceAll_preceded (by decide) engine_sc1 engine_sc2 engine_sc3 s i hocc

/-- Witness for C1 at the extraction line itself. -/
theorem engine_guard_precedes_extraction_witness :
    engineOld <:+: engineOld ∧
      (engineGuard.length ≤ engineGuard.length ∧
        OccAt engineGuard (patch_engine_empty engineOld)
          (engineGuard.length - engineGuard.length)) :=
  ⟨List.infix_rfl,
    engine_guard_precedes_extraction engineOld List.infix_rfl
      engineGuard.length (by decide)⟩

/-- C3: `patch_engine_empty.py` does not alter the pooling index: the number
of occurrences of the extraction line `hidden.narrow(1, actual_len - 1, 1)`
(at index `actual_len - 1`, the last non-padding token) is exactly preserved
by the rewrite, for every input text. -/
theorem engine_patch_preserves_extraction (s : List Char) :
    countOcc engineOld (patch_engine_empty s) = countOcc engineOld s := by
  unfold patch_engine_empty
  rw [engineNew_eq]
  exact replaceAll_count (by decide) engine_sc1 engine_sc2 s

/-- C4: for every main source text, every occurrence of the dimension-check
block ending in `tracing::warn!("Dimension check: ...", e); \x7d` in the
output of `patch_main.py` is immediately followed by the structured
`tracing::info!` event carrying `output_dim` and `model` with message
"Embedding engine configured". -/
theorem main_patch_emits_config_event (s : List Char)
    (hanchor : mainLogOld <:+: s) :
    ∀ i, OccAt mainLogOld (patch_main s) i →
      OccAt mainInfoLine (patch_main s) (i + mainLogOld.length) := by
  intro i hocc
  unfold patch_main at hocc ⊢
  rw [mainLogNew_eq] at hocc ⊢
  exact replaceAll_followed (by decide) (by decide) main_sc1 main_sc2 main_sc3
    (replaceAll mainHelpOld mainHelpNew s) i hocc

/-- Witness for C4 at the dimension-check block itself. -/
theorem main_patch_emits_config_event_witness :
    mainLogOld <:+: mainLogOld ∧
      OccAt mainInfoLine (patch_main mainLogOld) (0 + mainLogOld.length) :=
  ⟨List.infix_rfl,
    main_patch_emits_config_event mainLogOld List.infix_rfl 0 (by decide)⟩

/-! ### C2: the kind of error the inserted guard produces -/

/-- Identifier of the typed error kind the specification documents for
zero-token inputs. -/
def emptyInputErrorTok : List Char := "EmptyInputError".data

/-- The error construction the guard inserted by `patch_engine_empty.py`
actually uses: a type-erased `anyhow` error with a plain message. -/
def anyhowErrorTok : List Char :=
  "anyhow::anyhow!(\"Cannot embed empty token sequence\")".data

/-- C2 counterexample: on the extraction line itself, the text produced by
`patch_engine_empty.py` reports the zero-token failure with the generic
`anyhow::anyhow!` error and contains no `EmptyInputError` identifier at all,
so the failure is not the typed `EmptyInputError` the claim requires. -/
theorem engine_error_untyped_counterexample :
    occursB emptyInputErrorTok (patch_engine_empty engineOld) = false ∧
      occursB anyhowErrorTok (patch_engine_empty engineOld) = true := by decide

/-- C2 amended: the failure inserted for an input that tokenizes to zero
tokens is an early-returned generic `anyhow` error with message "Cannot embed
empty token sequence"; the patch introduces no typed `EmptyInputError`: if
the identifier does not occur in the engine source, it does not occur in the
patched text either. -/
theorem engine_empty_input_error_is_generic (s : List Char)
    (hanchor : engineOld <:+: s)
    (hclean : ¬ emptyInputErrorTok <:+: s) :
    anyhowErrorTok <:+: patch_engine_empty s ∧
      ¬ emptyInputErrorTok <:+: patch_engine_empty s := by
  constructor
  · obtain ⟨i, hocc⟩ := occAt_of_infix hanchor
    cases hfs : firstSplit engineOld s with
    | none => exact absurd hocc (firstSplit_none_not_occAt hfs i)
    | some q =>
      obtain ⟨pre, post⟩ := q
      unfold patch_engine_empty
      rw [replaceAll_some (by decide) hfs]
      have h1 : anyhowErrorTok <:+: engineNew := by decide
      exact infix_append_of_infix_left _ (infix_append_of_infix_right _ h1)
  · unfold patch_engine_empty
    exact not_infix_replaceAll (by decide) (by decide) (by decide) (by decide)
      (by decide) (by decide) s hclean

/-- Witness for the amended C2 at the extraction line itself. -/
theorem engine_empty_input_error_is_generic_witness :
    anyhowErrorTok <:+: patch_engine_empty engineOld ∧
      ¬ emptyInputErrorTok <:+: patch_engine_empty engineOld :=
  engine_empty_input_error_is_generic engineOld List.infix_rfl (by decide)

/-! ### C5: the `mrl_dim` binding is inserted between the two bindings -/

/-- The `model` binding of the anchor of `patch_service.py`. -/
def serviceModelBinding : List Char := "let model = self.config.model;".data

/-- The `mrl_dim` binding that `patch_service.py` restores. -/
def serviceMrlBinding : List Char := "let mrl_dim = self.config.mrl_dim;".data

/-- The `cache_dir` binding of the anchor of `patch_service.py`. -/
def serviceCacheBinding : List Char :=
  "let cache_dir = self.config.cache_dir.clone();".data

/-- Newline plus the 8-space indentation between the bindings. -/
def serviceIndent : List Char := "\n        ".data

theorem serviceOld_decomposition :
    serviceOld = serviceModelBinding ++ serviceIndent ++ serviceCacheBinding := by
  decide

theorem serviceNew_decomposition :
    serviceNew = serviceModelBinding ++ serviceIndent ++ serviceMrlBinding ++
      serviceIndent ++ serviceCacheBinding := by decide

/-- C5: the anchor of `patch_service.py` is the `model` binding immediately
followed by the `cache_dir` binding, and for every service source containing
it, the patched text contains the `model` binding, then the restored
`mrl_dim` binding, then the `cache_dir` binding — the configured MRL
dimension is captured between the two original bindings. -/
theorem service_patch_inserts_mrl_dim (s : List Char)
    (hanchor : serviceOld <:+: s) :
    serviceOld = serviceModelBinding ++ serviceIndent ++ serviceCacheBinding ∧
      (serviceModelBinding ++ serviceIndent ++ serviceMrlBinding ++
        serviceIndent ++ serviceCacheBinding) <:+: patch_service s := by
  refine ⟨serviceOld_decomposition, ?_⟩
  obtain ⟨i, hocc⟩ := occAt_of_infix hanchor
  cases hfs : firstSplit serviceOld s with
  | none => exact absurd hocc (firstSplit_none_not_occAt hfs i)
  | some q =>
    obtain ⟨pre, post⟩ := q
    unfold patch_service
    rw [replaceAll_some (by decide) hfs, ← serviceNew_decomposition]
    exact infix_append_of_infix_left _ (infix_append_of_infix_right _ List.infix_rfl)

/-- Witness for C5 at the anchor itself. -/
theorem service_patch_inserts_mrl_dim_witness :
    serviceOld = serviceModelBinding ++ serviceIndent ++ serviceCacheBinding ∧
      (serviceModelBinding ++ serviceIndent ++ serviceMrlBinding ++
        serviceIndent ++ serviceCacheBinding) <:+: patch_service serviceOld :=
  service_patch_inserts_mrl_dim serviceOld List.infix_rfl

/-! ### C10: idempotence of the patch transformations -/

/-- C10 counterexample: `patch_engine_empty.py` is not idempotent — applied
to its own output on the extraction line it prepends the empty-input guard a
second time, because the replacement text contains the anchor. -/
theorem patch_engine_empty_not_idempotent :
    patch_engine_empty (patch_engine_empty engineOld) ≠
      patch_engine_empty engineOld := by decide

/-- C10 amended: `patch_service.py` is idempotent on every input, but
`patch_engine_empty.py`, `patch_main.py` and `patch_default.py` are not:
reapplied to their own outputs on their anchor texts they insert the guard,
the `tracing::info!` line, and the `#[default]` attribute a second time. -/
theorem patch_idempotence_only_service :
    (∀ s, patch_service (patch_service s) = patch_service s) ∧
      patch_engine_empty (patch_engine_empty engineOld) ≠
        patch_engine_empty engineOld ∧
      patch_main (patch_main mainLogOld) ≠ patch_main mainLogOld ∧
      patch_default (patch_default qwenOld) ≠ patch_default qwenOld := by
  refine ⟨?_, by decide, by decide, by decide⟩
  intro s
  unfold patch_service
  exact replaceAll_idem (by decide) (by decide) (by decide) (by decide)
    (by decide) s

/-! ### C8: pure string rewriting with a frame property -/

/-- C8: each patch script is pure string rewriting.  Generically, every
`replaceAll` output is the input with exactly the anchor occurrences replaced
(the input splits into anchor-free segments joined by the anchor; the output
is the same segments joined by the replacement); and a script none of whose
anchors occurs in the input writes the content back byte-identical. -/
theorem patch_scripts_frame :
    (∀ p r s : List Char, p ≠ [] → ∃ segs : List (List Char), segs ≠ [] ∧
      (∀ t ∈ segs, ¬ p <:+: t) ∧ s = joinWith p segs ∧
      replaceAll p r s = joinWith r segs) ∧
    (∀ s, occursB engineOld s = false → patch_engine_empty s = s) ∧
    (∀ s, occursB mainHelpOld s = false → occursB mainLogOld s = false →
      patch_main s = s) ∧
    (∀ s, occursB serviceOld s = false → patch_service s = s) ∧
    (∀ s, occursB defaultImplOld s = false → occursB deriveOld s = false →
      occursB qwenOld s = false → patch_default s = s) ∧
    (∀ s, occursB readmeConfigOld s = false → occursB readmeModelsOld s = false →
      patch_readme s = s) := by
  refine ⟨fun p r s hp => replaceAll_chunks hp s, ?_, ?_, ?_, ?_, ?_⟩
  · intro s h
    unfold patch_engine_empty
    exact replaceAll_none (occursB_false_iff.mp h)
  · intro s h1 h2
    unfold patch_main
    rw [replaceAll_none (occursB_false_iff.mp h1),
      replaceAll_none (occursB_false_iff.mp h2)]
  · intro s h
    unfold patch_service
    exact replaceAll_none (occursB_false_iff.mp h)
  · intro s h1 h2 h3
    unfold patch_default
    rw [replaceAll_none (occursB_false_iff.mp h1),
      replaceAll_none (occursB_false_iff.mp h2),
      replaceAll_none (occursB_false_iff.mp h3)]
  · intro s h1 h2
    unfold patch_readme
    rw [replaceAll_none (occursB_false_iff.mp h1),
      replaceAll_none (occursB_false_iff.mp h2)]

/-- Witness for C8: the generic decomposition at a concrete input, and every
script leaves anchor-free content byte-identical. -/
theorem patch_scripts_frame_witness :
    (∃ segs : List (List Char), segs ≠ [] ∧
      (∀ t ∈ segs, ¬ engineOld <:+: t) ∧ "hello".data = joinWith engineOld segs ∧
      replaceAll engineOld engineNew "hello".data = joinWith engineNew segs) ∧
    patch_engine_empty "hello".data = "hello".data ∧
      patch_main "hello".data = "hello".data ∧
      patch_service "hello".data = "hello".data ∧
      patch_default "hello".data = "hello".data ∧
      patch_readme "hello".data = "hello".data :=
  ⟨patch_scripts_frame.1 engineOld engineNew "hello".data (by decide),
    patch_scripts_frame.2.1 _ (by decide),
    patch_scripts_frame.2.2.1 _ (by decide) (by decide),
    patch_scripts_frame.2.2.2.1 _ (by decide),
    patch_scripts_frame.2.2.2.2.1 _ (by decide) (by decide) (by decide),
    patch_scripts_frame.2.2.2.2.2 _ (by decide) (by decide)⟩

/-! ### C6: the documented default of the output-dimension option -/

/-- Modelled from the spec: `effective_output_dim()` of `EmbeddingConfig`
(the Rust configuration sources are not under src/) — the effective output
dimension is `output_dim` when set, else the model descriptor's
`native_dim`. -/
def effective_output_dim (output_dim : Option Nat) (native_dim : Nat) : Nat :=
  output_dim.getD native_dim

/-- Modelled from the spec: the native output dimension of the `qwen3`
model descriptor (1024, per the end-to-end example and the models table). -/
def qwen3NativeDim : Nat := 1024

/-- Sentence of the new CLI help attribute documenting the default. -/
def helpDefaultPhrase : List Char := "Defaults to model native dim (1024 for qwen3)".data

/-- Sentence of the new README configuration-table row documenting the
default. -/
def configDefaultPhrase : List Char := "Defaults to the model\x27s native maximum dimension (1024 for Qwen3)".data

/-- Sentence of the new README MRL section documenting the default. -/
def mrlSectionPhrase : List Char := "If omitted, the default is the model\x27s native base dimension (e.g., 1024 for Qwen3)".data

/-- Text of `readmeConfigNew` before `configDefaultPhrase`. -/
def cfgNewBefore : List Char := "| Arg | Env | Default | Description |\n|-----|-----|---------|-------------|\n| `--data-dir` | `DATA_DIR` | `./data` | DB location |\n| `--model` | `EMBEDDING_MODEL` | `qwen3` | Embedding model (`qwen3`, `gemma`, `bge_m3`, `nomic`, `e5_multi`, `e5_small`) |\n| `--mrl-dim` | `MRL_DIM` | *(native)* | Output dimension for MRL-supported models (e.g. 64, 128, 256, 512, 1024 for Qwen3). ".data

/-- Text of `readmeConfigNew` after `configDefaultPhrase`. -/
def cfgNewAfter : List Char := ". |\n| `--batch-size` | `BATCH_SIZE` | `8` | Maximum batch size for embedding inference |\n| `--cache-size` | `CACHE_SIZE` | `1000` | LRU cache capacity for embeddings |\n| `--timeout` | `TIMEOUT_MS` | `30000` | Timeout in milliseconds |\n| `--idle-timeout` | `IDLE_TIMEOUT` | `0` | Idle timeout in minutes. 0 = disabled |\n| `--log-level` | `LOG_LEVEL` | `info` | Verbosity |".data

/-- Text of `readmeModelsNew` before `mrlSectionPhrase`. -/
def modelsNewBefore : List Char := "| Argument Value | HuggingFace Repo | Dimensions | Size | Use Case |\n| :--- | :--- | :--- | :--- | :--- |\n| `qwen3` | `Qwen/Qwen3-Embedding-0.6B` | 1024 (MRL) | 1.2 GB | **Default**. Top open-source 2026 model, 32K context, MRL support. |\n| `gemma` | `onnx-community/embeddinggemma-300m-ONNX` | 768 (MRL) | ~195 MB | Lighter alternative with MRL support. (Requires proprietary license agreement) |\n| `bge_m3` | `BAAI/bge-m3` | 1024 | 2.3 GB | State-of-the-art multilingual hybrid retrieval. Heavy. |\n| `nomic` | `nomic-ai/nomic-embed-text-v1.5` | 768 | 1.9 GB | High quality long-context BERT-compatible. |\n| `e5_multi` | `intfloat/multilingual-e5-base` | 768 | 1.1 GB | Legacy; kept for backward compatibility. |\n| `e5_small` | `intfloat/multilingual-e5-small` | 384 | 134 MB | Fastest, minimal RAM. Good for dev/testing. |\n\n### 📉 Matryoshka Representation Learning (MRL)\n\nModels marked with **(MRL)** support dynamically truncating the output embedding vector to a smaller dimension (e.g., 512, 256, 128) with minimal loss of accuracy. This saves database storage and speeds up vector search.\n\nUse the `--mrl-dim` argument to specify the desired size. ".data

/-- Text of `readmeModelsNew` after `mrlSectionPhrase`. -/
def modelsNewAfter : List Char := ".\n\n**Warning:** Once your database is created with a specific dimension, you cannot change it without wiping the data directory.".data

theorem cfgNew_decomposition :
    cfgNewBefore ++ configDefaultPhrase ++ cfgNewAfter = readmeConfigNew := by
  rfl

theorem modelsNew_decomposition :
    modelsNewBefore ++ mrlSectionPhrase ++ modelsNewAfter = readmeModelsNew := by
  rfl

theorem helpPhrase_no_agree_left : ∀ d, d < mainLogOld.length →
    ¬ (mainLogOld.drop d <+: helpDefaultPhrase) ∧
      ¬ (helpDefaultPhrase <+: mainLogOld.drop d) := by decide

theorem helpPhrase_no_agree_right : ∀ e, e < helpDefaultPhrase.length →
    ¬ (helpDefaultPhrase.drop e <+: mainLogOld) ∧
      ¬ (mainLogOld <+: helpDefaultPhrase.drop e) := by decide

theorem configPhrase_no_agree_left : ∀ d, d < readmeModelsOld.length →
    ¬ (readmeModelsOld.drop d <+: configDefaultPhrase) ∧
      ¬ (configDefaultPhrase <+: readmeModelsOld.drop d) := by decide

theorem configPhrase_no_agree_right : ∀ e, e < configDefaultPhrase.length →
    ¬ (configDefaultPhrase.drop e <+: readmeModelsOld) ∧
      ¬ (readmeModelsOld <+: configDefaultPhrase.drop e) := by decide

/-- C6: with the option unset the effective output dimension is the model
native dimension (1024 for qwen3, modelled from the spec since the Rust
sources are not under src/); and after the patches run on inputs containing
their anchors, the CLI help attribute, the README configuration-table row,
and the README MRL section all state that the unset option defaults to the
model native dimension.  For the MRL-section conjunct the anchor occurrences
of the two README tables are assumed not to overlap each other. -/
theorem docs_state_native_default :
    (∀ nd, effective_output_dim none nd = nd) ∧
    effective_output_dim none qwen3NativeDim = 1024 ∧
    (∀ s, mainHelpOld <:+: s → helpDefaultPhrase <:+: patch_main s) ∧
    (∀ s, readmeConfigOld <:+: s → configDefaultPhrase <:+: patch_readme s) ∧
    (∀ s,
      (∀ i, i < s.length → OccAt readmeConfigOld s i →
        ∀ j, j < s.length → OccAt readmeModelsOld s j →
          (i + readmeConfigOld.length ≤ j ∨ j + readmeModelsOld.length ≤ i)) →
      readmeModelsOld <:+: s → mrlSectionPhrase <:+: patch_readme s) := by
  refine ⟨fun nd => rfl, rfl, ?_, ?_, ?_⟩
  · intro s hanchor
    unfold patch_main
    apply infix_replaceAll_of_disjoint (by decide) (by decide)
    · exact disjoint_of_no_agree helpPhrase_no_agree_left
        helpPhrase_no_agree_right _
    · obtain ⟨i, hocc⟩ := occAt_of_infix hanchor
      cases hfs : firstSplit mainHelpOld s with
      | none => exact absurd hocc (firstSplit_none_not_occAt hfs i)
      | some q =>
        obtain ⟨pre, post⟩ := q
        rw [replaceAll_some (by decide) hfs]
        have h1 : helpDefaultPhrase <:+: mainHelpNew := by decide
        exact infix_append_of_infix_left _ (infix_append_of_infix_right _ h1)
  · intro s hanchor
    unfold patch_readme
    apply infix_replaceAll_of_disjoint (by decide) (by decide)
    · exact disjoint_of_no_agree configPhrase_no_agree_left
        configPhrase_no_agree_right _
    · obtain ⟨i, hocc⟩ := occAt_of_infix hanchor
      cases hfs : firstSplit readmeConfigOld s with
      | none => exact absurd hocc (firstSplit_none_not_occAt hfs i)
      | some q =>
        obtain ⟨pre, post⟩ := q
        rw [replaceAll_some (by decide) hfs]
        have h1 : configDefaultPhrase <:+: readmeConfigNew :=
          ⟨cfgNewBefore, cfgNewAfter, cfgNew_decomposition⟩
        exact infix_append_of_infix_left _ (infix_append_of_infix_right _ h1)
  · intro s hdisjB hanchor
    unfold patch_readme
    have hsurv : readmeModelsOld <:+:
        replaceAll readmeConfigOld readmeConfigNew s := by
      refine infix_replaceAll_of_disjoint (by decide) (by decide) s ?_ hanchor
      intro i j hi hj
      exact hdisjB i (occAt_length_lt (by decide) hi) hi
        j (occAt_length_lt (by decide) hj) hj
    obtain ⟨i, hocc⟩ := occAt_of_infix hsurv
    cases hfs : firstSplit readmeModelsOld
        (replaceAll readmeConfigOld readmeConfigNew s) with
    | none => exact absurd hocc (firstSplit_none_not_occAt hfs i)
    | some q =>
      obtain ⟨pre, post⟩ := q
      rw [replaceAll_some (by decide) hfs]
      have h1 : mrlSectionPhrase <:+: readmeModelsNew :=
        ⟨modelsNewBefore, modelsNewAfter, modelsNew_decomposition⟩
      exact infix_append_of_infix_left _ (infix_append_of_infix_right _ h1)

/-- Witness for C6 at the anchor texts themselves. -/
theorem docs_state_native_default_witness :
    effective_output_dim none qwen3NativeDim = 1024 ∧
      helpDefaultPhrase <:+: patch_main mainHelpOld ∧
      configDefaultPhrase <:+: patch_readme readmeConfigOld ∧
      mrlSectionPhrase <:+: patch_readme readmeModelsOld :=
  ⟨docs_state_native_default.2.1,
    docs_state_native_default.2.2.1 mainHelpOld List.infix_rfl,
    docs_state_native_default.2.2.2.1 readmeConfigOld List.infix_rfl,
    docs_state_native_default.2.2.2.2 readmeModelsOld (by decide) List.infix_rfl⟩

/-! ### C7: MRL prefix stability (modelled from the spec) -/

/-- Modelled from the spec: the pre-renormalization MRL truncation — the
first `d` components of the pooled vector.  The InferenceEngine sources are
not under src/; vectors are modelled with exact rational components, so the
floating-point tolerance of the spec becomes equality. -/
def preRenormTruncate (d : Nat) (v : List ℚ) : List ℚ := v.take d

/-- Modelled from the spec: sum of squared components of the truncated
vector, the square of its L2 norm. -/
def sumSq (l : List ℚ) : ℚ := (l.map (fun x => x * x)).sum

/-- Modelled from the spec: L2 renormalization — divide every component by
the L2 norm of the vector, producing a real vector. -/
noncomputable def l2renorm (l : List ℚ) : List ℝ :=
  l.map (fun x => (x : ℝ) / Real.sqrt ((sumSq l : ℚ) : ℝ))

/-- Modelled from the spec: the MRL output at effective dimension `d` —
truncate the pooled vector to its first `d` components and L2-renormalize. -/
noncomputable def mrlEmbed (d : Nat) (v : List ℚ) : List ℝ :=
  l2renorm (preRenormTruncate d v)

/-- C7: MRL prefix stability — for any pooled vector and dimensions
`d2 < d1 ≤ native_dim`, taking the first `d2` components of the `d1`-length
pre-renormalization result and L2-renormalizing them equals the
directly-computed `d2`-dimension output (exactly, in the exact-arithmetic
model). -/
theorem mrl_prefix_stability (d1 d2 : Nat) (v : List ℚ) (h12 : d2 < d1)
    (hnative : d1 ≤ v.length) :
    l2renorm ((preRenormTruncate d1 v).take d2) = mrlEmbed d2 v := by
  unfold mrlEmbed preRenormTruncate
  rw [List.take_take, Nat.min_eq_left (Nat.le_of_lt h12)]

/-- Witness for C7 at a concrete vector and dimensions. -/
theorem mrl_prefix_stability_witness :
    (2 : Nat) < 4 ∧ 4 ≤ ([1, 2, 3, 4] : List ℚ).length ∧
      l2renorm ((preRenormTruncate 4 [1, 2, 3, 4]).take 2) =
        mrlEmbed 2 [1, 2, 3, 4] :=
  ⟨by decide, by decide,
    mrl_prefix_stability 4 2 [1, 2, 3, 4] (by decide) (by decide)⟩

/-! ### C9: `patch_default.py` preserves the default variant (modelled from
the spec) -/

/-- Character class of Rust identifiers, for the textual Default model. -/
def identChar (c : Char) : Bool := c.isAlphanum || c == '_'

/-- Text after the first occurrence of `p` in `s`, when `p` occurs. -/
def afterFirst (p s : List Char) : Option (List Char) :=
  (firstSplit p s).map (fun q => q.2)

/-- Header of the manual `impl Default for ModelType` block. -/
def implHeaderTok : List Char := "impl Default for ModelType".data

/-- The `Self::` path prefix of the returned variant. -/
def selfColonTok : List Char := "Self::".data

/-- Marker that the derive list of the enum carries `Default`. -/
def deriveDefaultTok : List Char := ", Default)]".data

/-- The `#[default]` attribute. -/
def defaultAttrTok : List Char := "#[default]".data

/-- Modelled from the spec: the variant returned by a manual
`impl Default for ModelType` block, extracted textually (the Rust
`config.rs` is not under src/, so Rust Default resolution is modelled as a
function on source text). -/
def manualDefaultVariant (s : List Char) : Option (List Char) :=
  match afterFirst implHeaderTok s with
  | none => none
  | some rest =>
    match afterFirst selfColonTok rest with
    | none => none
    | some r2 => some (r2.takeWhile identChar)

/-- Modelled from the spec: the variant carrying the `#[default]` attribute
when the enum derives `Default`, extracted textually. -/
def deriveDefaultVariant (s : List Char) : Option (List Char) :=
  if occursB deriveDefaultTok s then
    match afterFirst defaultAttrTok s with
    | none => none
    | some rest =>
      some ((rest.dropWhile (fun c => c == '\n' || c == ' ')).takeWhile identChar)
  else none

/-- Modelled from the spec: Rust Default resolution for `ModelType` — the
manual impl when present, else the derived `#[default]` variant. -/
def modelTypeDefault (s : List Char) : Option (List Char) :=
  match manualDefaultVariant s with
  | some v => some v
  | none => deriveDefaultVariant s

/-- Representative `src/embedding/config.rs` fragment containing the three
anchors of `patch_default.py` in their source configuration. -/
def configSample : List Char :=
  "#[derive(Debug, Clone, Copy, PartialEq, Eq)]\npub enum ModelType \x7b\n    Qwen3,\n    Gemma,\n    BgeM3,\n\x7d\n\nimpl Default for ModelType \x7b\n    fn default() -> Self \x7b\n        Self::Qwen3\n    \x7d\n\x7d\n".data

/-- C9: on the representative config source, `patch_default.py` removes the
manual `impl Default for ModelType` returning `Self::Qwen3`, adds `Default`
to the derive list, places `#[default]` on the `Qwen3` variant, and the
resolved default variant is `Qwen3` both before and after the patch. -/
theorem patch_default_preserves_qwen3_default :
    modelTypeDefault configSample = some "Qwen3".data ∧
      modelTypeDefault (patch_default configSample) = some "Qwen3".data ∧
      manualDefaultVariant configSample = some "Qwen3".data ∧
      manualDefaultVariant (patch_default configSample) = none ∧
      occursB deriveDefaultTok (patch_default configSample) = true ∧
      occursB qwenNew (patch_default configSample) = true := by decide

end MemoryMcpPatches
